import Mathlib

/-!
Shallow embedding of the Othello engine
(repository: Othello Agent — Adversarial AI with Minimax and Alpha-Beta Pruning).

Source files embedded: `config.py` (constants), `game.py` (rules engine:
`OthelloGame`), `ai.py` (search engine: `OthelloAI`, `_parallel_worker`,
`evaluate_board`).

Modelling conventions, documented once here:

* A board is a total function `Int → Int → Int`.  The Python board is an
  8×8 list of lists; every read in `game.py`/`ai.py` is guarded by
  `is_valid_position` (or by the `range(8)` scan), so the value of the
  function outside `[0,8) × [0,8)` is never observed by the embedded code.
  Cell values follow `config.py`: `EMPTY = 0`, `BLACK = 1`, `WHITE = -1`.
* Python's unbounded `while` walk along a ray is embedded with fuel 8
  (`collectRay`).  For any direction `(dr, dc)` with entries in `{-1,0,1}`
  and not `(0,0)`, the coordinate moved by a nonzero component takes at
  most 8 consecutive in-bounds values, so if the first examined cell is
  in bounds the walk examines cells `k = 1..8` at most, and the cell at
  `k = 9` is always out of bounds; fuel 8 therefore reproduces the loop
  exactly (if the first cell is out of bounds both return `[]` at once).
* Python's `history.append` / `history.pop` pair is embedded with the
  most recent entry at the HEAD of the list (cons/head instead of
  append/pop-at-end) — an order-reversing but faithful renaming.
* `make_move` and `undo_last_move` mutate `self.board`/`self.history`;
  they are embedded in state-passing style, returning the Python return
  value together with the new board and history.
-/

/-- `config.BOARD_SIZE`. -/
def BOARD_SIZE : Int := 8

/-- `config.EMPTY`. -/
def EMPTY : Int := 0

/-- `config.BLACK`. -/
def BLACK : Int := 1

/-- `config.WHITE`. -/
def WHITE : Int := -1

/-- `config.DIRECTIONS`: the 8 ray directions, in source order. -/
def DIRECTIONS : List (Int × Int) :=
  [(-1, -1), (-1, 0), (-1, 1), (0, -1), (0, 1), (1, -1), (1, 0), (1, 1)]

/-- A board: cell values indexed by (row, column). -/
def Board : Type := Int → Int → Int

/-- Write one cell of a board (Python `board[r][c] = v`). -/
def setCell (b : Board) (r c v : Int) : Board :=
  fun i j => if i = r ∧ j = c then v else b i j

/-- `OthelloGame.is_valid_position`: bounds check `0 <= row < 8 and 0 <= col < 8`. -/
def is_valid_position (r c : Int) : Bool :=
  decide (0 ≤ r ∧ r < BOARD_SIZE ∧ 0 ≤ c ∧ c < BOARD_SIZE)

/-- `OthelloGame.get_opponent`: `WHITE if color == BLACK else BLACK`. -/
def get_opponent (color : Int) : Int :=
  if color = BLACK then WHITE else BLACK

/-- The row-major scan `for i in range(8): for j in range(8)` used by
`legal_moves` and `get_legal_moves`. -/
def coords : List (Int × Int) :=
  (List.range 8).flatMap fun i => (List.range 8).map fun j => ((i : Int), (j : Int))

/-- The `while is_valid_position(r, c) and board[r][c] == opp` collection
loop shared by `is_valid_move`, `get_legal_moves`, `flip_discs` and
`apply_move`, with fuel (see header note on fuel 8). -/
def collectRay (b : Board) (dr dc opp : Int) : Int → Int → Nat → List (Int × Int)
  | _, _, 0 => []
  | r, c, f + 1 =>
    if is_valid_position r c && (b r c == opp) then
      (r, c) :: collectRay b dr dc opp (r + dr) (c + dc) f
    else
      []

/-- The per-direction legality test shared by `is_valid_move` and
`get_legal_moves`: the run of opponent discs starting next to
`(row, col)` is non-empty and the cell the walk stops on is in bounds
and holds `color`.  The stop cell of the walk is
`(row + (n+1)·dr, col + (n+1)·dc)` where `n` is the run length. -/
def dir_qualifies (b : Board) (row col dr dc color : Int) : Bool :=
  let run := collectRay b dr dc (get_opponent color) (row + dr) (col + dc) 8
  let n : Int := run.length
  !run.isEmpty && is_valid_position (row + (n + 1) * dr) (col + (n + 1) * dc)
    && (b (row + (n + 1) * dr) (col + (n + 1) * dc) == color)

/-- `OthelloGame.is_valid_move`. -/
def is_valid_move (b : Board) (row col color : Int) : Bool :=
  if !is_valid_position row col then false
  else if b row col != EMPTY then false
  else DIRECTIONS.any fun d => dir_qualifies b row col d.1 d.2 color

/-- `OthelloGame.legal_moves`: row-major filter by `is_valid_move`. -/
def legal_moves (b : Board) (color : Int) : List (Int × Int) :=
  coords.filter fun p => is_valid_move b p.1 p.2 color

/-- `OthelloGame.get_legal_moves`: the second, board-passing legal move
generator; skips non-empty cells, then breaks out at the first
qualifying direction (`List.any`). -/
def get_legal_moves (b : Board) (color : Int) : List (Int × Int) :=
  coords.filter fun p =>
    (b p.1 p.2 == EMPTY) && DIRECTIONS.any fun d => dir_qualifies b p.1 p.2 d.1 d.2 color

/-- `OthelloGame.flip_discs`: empty list when the move is invalid,
otherwise the concatenation over the 8 directions (in source order) of
each qualifying run (the guard on each run is exactly `dir_qualifies`
read off the unchanged board `b`). -/
def flip_discs (b : Board) (row col color : Int) : List (Int × Int) :=
  if !is_valid_move b row col color then []
  else
    DIRECTIONS.flatMap fun d =>
      if dir_qualifies b row col d.1 d.2 color then
        collectRay b d.1 d.2 (get_opponent color) (row + d.1) (col + d.2) 8
      else []

/-- One history entry (`game.py` appends a dict with keys
`move`, `color`, `flipped`). -/
structure HistEntry where
  move : Option (Int × Int)
  color : Int
  flipped : List (Int × Int)

/-- `OthelloGame.make_move` in state-passing style: returns the Python
return value together with the updated board and history. -/
def make_move (b : Board) (h : List HistEntry) (move : Option (Int × Int))
    (color : Int) : Bool × Board × List HistEntry :=
  match move with
  | none => (true, b, ⟨none, color, []⟩ :: h)
  | some (row, col) =>
    if !is_valid_move b row col color then (false, b, h)
    else
      let flipped := flip_discs b row col color
      let b1 := setCell b row col color
      let b2 := flipped.foldl (fun bb p => setCell bb p.1 p.2 color) b1
      (true, b2, ⟨some (row, col), color, flipped⟩ :: h)

/-- One direction step of the flip loop in `OthelloGame.apply_move`:
collect the run of opponent discs next to `(row, col)` on the EVOLVING
board `bb` and flip it when it terminates on `color`.  `apply_move`
places the disc unconditionally (no legality check in the source) and
folds this step over the 8 directions in order. -/
def flipDir (row col color : Int) (bb : Board) (d : Int × Int) : Board :=
  let run := collectRay bb d.1 d.2 (get_opponent color) (row + d.1) (col + d.2) 8
  let n : Int := run.length
  if (!run.isEmpty && is_valid_position (row + (n + 1) * d.1) (col + (n + 1) * d.2)
      && (bb (row + (n + 1) * d.1) (col + (n + 1) * d.2) == color)) then
    run.foldl (fun b2 p => setCell b2 p.1 p.2 color) bb
  else bb

/-- `OthelloGame.apply_move`, continued: the fold over the 8 directions. -/
def apply_move (b : Board) (move : Option (Int × Int)) (color : Int) : Board :=
  match move with
  | none => b
  | some (row, col) =>
    DIRECTIONS.foldl (flipDir row col color) (setCell b row col color)

/-- `OthelloGame.undo_last_move` in state-passing style. -/
def undo_last_move (b : Board) (h : List HistEntry) :
    Bool × Board × List HistEntry :=
  match h with
  | [] => (false, b, [])
  | e :: rest =>
    match e.move with
    | none => (true, b, rest)
    | some (row, col) =>
      let opp := get_opponent e.color
      let b1 := setCell b row col EMPTY
      let b2 := e.flipped.foldl (fun bb p => setCell bb p.1 p.2 opp) b1
      (true, b2, rest)

/-- `OthelloGame.count_discs`: `(black_count, white_count)`. -/
def count_discs (b : Board) : Nat × Nat :=
  (coords.countP fun p => b p.1 p.2 == BLACK,
   coords.countP fun p => b p.1 p.2 == WHITE)

/-- `OthelloGame.is_game_over`: no legal moves for either color. -/
def is_game_over (b : Board) : Bool :=
  (legal_moves b BLACK).isEmpty && (legal_moves b WHITE).isEmpty

/-- `OthelloGame.__init__`: the start position (origin at bottom-left):
(3,3) and (4,4) Black, (3,4) and (4,3) White, all other cells empty. -/
def startBoard : Board := fun r c =>
  if (r = 3 ∧ c = 3) ∨ (r = 4 ∧ c = 4) then BLACK
  else if (r = 3 ∧ c = 4) ∨ (r = 4 ∧ c = 3) then WHITE
  else EMPTY

example : legal_moves startBoard BLACK = [(2, 4), (3, 5), (4, 2), (5, 3)] := by decide
example : is_valid_move startBoard 2 3 BLACK = false := by decide
example : flip_discs startBoard 2 4 BLACK = [(3, 4)] := by decide
example : get_legal_moves startBoard WHITE = [(2, 3), (3, 2), (4, 5), (5, 4)] := by decide
example : count_discs startBoard = (2, 2) := by decide

/-!
## Search engine (`ai.py`)

Scores: Python uses `-math.inf` / `math.inf` sentinels alongside integer
evaluations, so scores live in `ℤ` extended with a bottom and a top
element.  Wall-clock time: `time_exceeded` is modelled in two ways —
definitions without a `T` suffix model unlimited time (every check
returns `False`, the hypothesis of the equivalence properties), while
`T`-suffixed definitions thread an arbitrary oracle `ω : Nat → Bool`
consulted once per `time_exceeded()` call, with a call counter passed
through in state-passing style.  `multiprocessing.Pool.map` returns
worker results in task order and is modelled as `List.map`; `cpu_count`
is a parameter `ncpu`; pool-creation failure (the `except` fallback) is
a parameter `poolOk`.
-/

/-- Scores: integers plus `-math.inf` (`⊥`) and `math.inf` (`⊤`). -/
abbrev Score := WithBot (WithTop ℤ)

/-- Embed an integer evaluation into `Score`. -/
def toScore (n : ℤ) : Score := ((n : WithTop ℤ) : Score)

/-- `config.WEIGHTS["material"]`. -/
def W_material : Int := 10

/-- `config.WEIGHTS["mobility"]`. -/
def W_mobility : Int := 7

/-- `config.WEIGHTS["corner"]`. -/
def W_corner : Int := 40

/-- `config.WEIGHTS["edge"]`. -/
def W_edge : Int := 3

/-- `config.WEIGHTS["stability"]`. -/
def W_stability : Int := 4

/-- `corners_idx` in `evaluate_board` / `OthelloAI.evaluate`. -/
def corners_idx : List (Int × Int) := [(0, 0), (0, 7), (7, 0), (7, 7)]

/-- The edge cells scanned by `evaluate_board`: full top and bottom rows
(corners included), then left and right columns for rows 1..6. -/
def edge_cells : List (Int × Int) :=
  (([0, 7] : List Int).flatMap fun i => (List.range 8).map fun j => (i, (j : Int))) ++
  (([0, 7] : List Int).flatMap fun j => (List.range 6).map fun i => ((i : Int) + 1, j))

/-- `ai.evaluate_board` (identical computation to `OthelloAI.evaluate`):
weighted sum of material, mobility, corner, edge and corner-stability
differentials from `color`'s perspective. -/
def evaluate_board (b : Board) (color : Int) : Int :=
  let black_count : Int := (coords.countP fun p => b p.1 p.2 == BLACK : Nat)
  let white_count : Int := (coords.countP fun p => b p.1 p.2 == WHITE : Nat)
  let material := if color = BLACK then black_count - white_count else white_count - black_count
  let my_moves : Int := ((get_legal_moves b color).length : Nat)
  let opp_moves : Int := ((get_legal_moves b (-color)).length : Nat)
  let mobility := if my_moves + opp_moves ≠ 0 then my_moves - opp_moves else 0
  let my_corners : Int := (corners_idx.countP fun p => b p.1 p.2 == color : Nat)
  let opp_corners : Int := (corners_idx.countP fun p => b p.1 p.2 == -color : Nat)
  let corners := my_corners - opp_corners
  let my_edges : Int := (edge_cells.countP fun p => b p.1 p.2 == color : Nat)
  let opp_edges : Int := (edge_cells.countP fun p => b p.1 p.2 == -color : Nat)
  let edges := my_edges - opp_edges
  let stability : Int := corners_idx.foldl
    (fun s p =>
      if b p.1 p.2 = color then
        s + 1 + (DIRECTIONS.countP fun d =>
          decide (0 ≤ p.1 + d.1 ∧ p.1 + d.1 < 8 ∧ 0 ≤ p.2 + d.2 ∧ p.2 + d.2 < 8)
            && (b (p.1 + d.1) (p.2 + d.2) == color))
      else s)
    0
  W_material * material + W_mobility * mobility + W_corner * corners +
    W_edge * edges + W_stability * stability

/-- The maximizing move loop of `OthelloAI.alphabeta_search` (unlimited
time): update best on strict improvement (or first move), raise alpha,
cut off once `beta <= alpha`.  `search` is the recursive call one ply
deeper. -/
def abMaxLoop (search : Board → Score → Score → Option (Int × Int) × Score)
    (b : Board) (node_color : Int) :
    List (Int × Int) → Score → Score → Option (Int × Int) → Score →
    Option (Int × Int) × Score
  | [], _, _, best, acc => (best, acc)
  | m :: rest, alpha, beta, best, acc =>
    let ev := (search (apply_move b (some m) node_color) alpha beta).2
    let best2 := if ev > acc ∨ best = none then some m else best
    let acc2 := if ev > acc ∨ best = none then ev else acc
    let alpha2 := max alpha ev
    if beta ≤ alpha2 then (best2, acc2)
    else abMaxLoop search b node_color rest alpha2 beta best2 acc2

/-- The minimizing move loop of `OthelloAI.alphabeta_search` (unlimited
time). -/
def abMinLoop (search : Board → Score → Score → Option (Int × Int) × Score)
    (b : Board) (node_color : Int) :
    List (Int × Int) → Score → Score → Option (Int × Int) → Score →
    Option (Int × Int) × Score
  | [], _, _, best, acc => (best, acc)
  | m :: rest, alpha, beta, best, acc =>
    let ev := (search (apply_move b (some m) node_color) alpha beta).2
    let best2 := if ev < acc ∨ best = none then some m else best
    let acc2 := if ev < acc ∨ best = none then ev else acc
    let beta2 := min beta ev
    if beta2 ≤ alpha then (best2, acc2)
    else abMinLoop search b node_color rest alpha beta2 best2 acc2

/-- `OthelloAI.alphabeta_search` with unlimited time (`self.color` is the
`color` argument; `-color` plays at minimizing nodes). -/
def alphabeta_search (b : Board) (color : Int) :
    Nat → Score → Score → Bool → Option (Int × Int) × Score
  | 0, _, _, _ => (none, toScore (evaluate_board b color))
  | d + 1, alpha, beta, maximizing =>
    let node_color := if maximizing then color else -color
    let moves := get_legal_moves b node_color
    if moves.isEmpty then (none, toScore (evaluate_board b color))
    else if maximizing then
      abMaxLoop (fun b2 a2 b3 => alphabeta_search b2 color d a2 b3 false)
        b node_color moves alpha beta none ⊥
    else
      abMinLoop (fun b2 a2 b3 => alphabeta_search b2 color d a2 b3 true)
        b node_color moves alpha beta none ⊤

/-- Modelled from the spec: maximizing loop of the "brute-force
full-width minimax over the same depth using the same evaluator" —
`abMaxLoop` with the alpha window and the cutoff removed, same traversal
order and same first-strict-improvement tie-break. -/
def mmMaxLoop (search : Board → Option (Int × Int) × Score)
    (b : Board) (node_color : Int) :
    List (Int × Int) → Option (Int × Int) → Score → Option (Int × Int) × Score
  | [], best, acc => (best, acc)
  | m :: rest, best, acc =>
    let ev := (search (apply_move b (some m) node_color)).2
    let best2 := if ev > acc ∨ best = none then some m else best
    let acc2 := if ev > acc ∨ best = none then ev else acc
    mmMaxLoop search b node_color rest best2 acc2

/-- Modelled from the spec: minimizing loop of the brute-force minimax. -/
def mmMinLoop (search : Board → Option (Int × Int) × Score)
    (b : Board) (node_color : Int) :
    List (Int × Int) → Option (Int × Int) → Score → Option (Int × Int) × Score
  | [], best, acc => (best, acc)
  | m :: rest, best, acc =>
    let ev := (search (apply_move b (some m) node_color)).2
    let best2 := if ev < acc ∨ best = none then some m else best
    let acc2 := if ev < acc ∨ best = none then ev else acc
    mmMinLoop search b node_color rest best2 acc2

/-- Modelled from the spec: brute-force full-width minimax, the pruning-free
reference that claim C6 compares `alphabeta_search` against. -/
def minimax_search (b : Board) (color : Int) :
    Nat → Bool → Option (Int × Int) × Score
  | 0, _ => (none, toScore (evaluate_board b color))
  | d + 1, maximizing =>
    let node_color := if maximizing then color else -color
    let moves := get_legal_moves b node_color
    if moves.isEmpty then (none, toScore (evaluate_board b color))
    else if maximizing then
      mmMaxLoop (fun b2 => minimax_search b2 color d false) b node_color moves none ⊥
    else
      mmMinLoop (fun b2 => minimax_search b2 color d true) b node_color moves none ⊤

/-- Maximizing loop of the worker-local `alphabeta` closure in
`ai._parallel_worker` (value only, unlimited time): `value = max(value, ev)`,
`alpha = max(alpha, ev)`, cut off once `beta <= alpha`. -/
def wMaxLoop (search : Board → Score → Score → Score) (b : Board) (node_color : Int) :
    List (Int × Int) → Score → Score → Score → Score
  | [], _, _, value => value
  | m :: rest, alpha, beta, value =>
    let ev := search (apply_move b (some m) node_color) alpha beta
    let value2 := max value ev
    let alpha2 := max alpha ev
    if beta ≤ alpha2 then value2
    else wMaxLoop search b node_color rest alpha2 beta value2

/-- Minimizing loop of the worker-local `alphabeta` closure. -/
def wMinLoop (search : Board → Score → Score → Score) (b : Board) (node_color : Int) :
    List (Int × Int) → Score → Score → Score → Score
  | [], _, _, value => value
  | m :: rest, alpha, beta, value =>
    let ev := search (apply_move b (some m) node_color) alpha beta
    let value2 := min value ev
    let beta2 := min beta ev
    if beta2 ≤ alpha then value2
    else wMinLoop search b node_color rest alpha beta2 value2

/-- The worker-local `alphabeta` closure of `ai._parallel_worker`
(unlimited time). -/
def worker_alphabeta (b : Board) (color : Int) :
    Nat → Score → Score → Bool → Score
  | 0, _, _, _ => toScore (evaluate_board b color)
  | d + 1, alpha, beta, maximizing =>
    let node_color := if maximizing then color else -color
    let moves := get_legal_moves b node_color
    if moves.isEmpty then toScore (evaluate_board b color)
    else if maximizing then
      wMaxLoop (fun b2 a2 b3 => worker_alphabeta b2 color d a2 b3 false)
        b node_color moves alpha beta ⊥
    else
      wMinLoop (fun b2 a2 b3 => worker_alphabeta b2 color d a2 b3 true)
        b node_color moves alpha beta ⊤

/-- `ai._parallel_worker` (unlimited time): apply the root move, then
search `depth - 1` plies from the opponent's (minimizing) perspective
with a full window. -/
def parallel_worker (b : Board) (move : Int × Int) (depth : Nat) (color : Int) :
    (Int × Int) × Score :=
  let new_board := apply_move b (some move) color
  (move, worker_alphabeta new_board color (depth - 1) ⊥ ⊤ false)

/-- The root move loop of `OthelloAI._root_search_sequential` (unlimited
time): no cutoff at the root, only the alpha bound is raised. -/
def seqRootLoop (search : Board → Score → Score → Option (Int × Int) × Score)
    (b : Board) (color : Int) :
    List (Int × Int) → Score → Score → Option (Int × Int) → Score →
    Option (Int × Int) × Score
  | [], _, _, best, bestScore => (best, bestScore)
  | m :: rest, alpha, beta, best, bestScore =>
    let ev := (search (apply_move b (some m) color) alpha beta).2
    let best2 := if ev > bestScore ∨ best = none then some m else best
    let bs2 := if ev > bestScore ∨ best = none then ev else bestScore
    seqRootLoop search b color rest (max alpha ev) beta best2 bs2

/-- `OthelloAI._root_search_sequential` (unlimited time). -/
def root_search_sequential (b : Board) (color : Int) (moves : List (Int × Int))
    (depth : Nat) : Option (Int × Int) × Score :=
  seqRootLoop (fun b2 a2 b3 => alphabeta_search b2 color (depth - 1) a2 b3 false)
    b color moves ⊥ ⊤ none ⊥

/-- Python `max(results, key=lambda x: x[1])`: first element with the
maximal score (a later equal score does not replace an earlier one). -/
def pyMaxBySecond : (Int × Int) × Score → List ((Int × Int) × Score) → (Int × Int) × Score
  | best, [] => best
  | best, x :: rest => pyMaxBySecond (if x.2 > best.2 then x else best) rest

/-- `OthelloAI._root_search_parallel` (unlimited time, pool creation
succeeds): with fewer than 2 effective workers fall back to the
sequential search, otherwise map the worker over the root moves in task
order and reduce by first-seen maximal score. -/
def root_search_parallel (b : Board) (color : Int) (moves : List (Int × Int))
    (depth : Nat) (ncpu : Nat) : Option (Int × Int) × Score :=
  if min ncpu moves.length ≤ 1 then root_search_sequential b color moves depth
  else
    match moves.map fun m => parallel_worker b m depth color with
    | [] => (none, ⊥)
    | r :: rs =>
      let best := pyMaxBySecond r rs
      (some best.1, best.2)

/-- Maximizing loop of `OthelloAI.alphabeta_search` with the time oracle
threaded: `if self.time_exceeded(): break` at the top of each iteration
consumes one oracle tick. -/
def abMaxLoopT (om : Nat → Bool)
    (search : Board → Score → Score → Nat → (Option (Int × Int) × Score) × Nat)
    (b : Board) (node_color : Int) :
    List (Int × Int) → Score → Score → Option (Int × Int) → Score → Nat →
    (Option (Int × Int) × Score) × Nat
  | [], _, _, best, acc, k => ((best, acc), k)
  | m :: rest, alpha, beta, best, acc, k =>
    if om k then ((best, acc), k + 1)
    else
      let r := search (apply_move b (some m) node_color) alpha beta (k + 1)
      let ev := r.1.2
      let best2 := if ev > acc ∨ best = none then some m else best
      let acc2 := if ev > acc ∨ best = none then ev else acc
      let alpha2 := max alpha ev
      if beta ≤ alpha2 then ((best2, acc2), r.2)
      else abMaxLoopT om search b node_color rest alpha2 beta best2 acc2 r.2

/-- Minimizing loop of `OthelloAI.alphabeta_search` with the time oracle
threaded. -/
def abMinLoopT (om : Nat → Bool)
    (search : Board → Score → Score → Nat → (Option (Int × Int) × Score) × Nat)
    (b : Board) (node_color : Int) :
    List (Int × Int) → Score → Score → Option (Int × Int) → Score → Nat →
    (Option (Int × Int) × Score) × Nat
  | [], _, _, best, acc, k => ((best, acc), k)
  | m :: rest, alpha, beta, best, acc, k =>
    if om k then ((best, acc), k + 1)
    else
      let r := search (apply_move b (some m) node_color) alpha beta (k + 1)
      let ev := r.1.2
      let best2 := if ev < acc ∨ best = none then some m else best
      let acc2 := if ev < acc ∨ best = none then ev else acc
      let beta2 := min beta ev
      if beta2 ≤ alpha then ((best2, acc2), r.2)
      else abMinLoopT om search b node_color rest alpha beta2 best2 acc2 r.2

/-- `OthelloAI.alphabeta_search` with the time oracle `om` threaded; the
entry check `depth == 0 or not legal_moves or self.time_exceeded()` is
short-circuited, so the oracle is consulted only when depth and moves do
not already terminate the node. -/
def alphabeta_searchT (om : Nat → Bool) (b : Board) (color : Int) :
    Nat → Score → Score → Bool → Nat → (Option (Int × Int) × Score) × Nat
  | 0, _, _, _, k => ((none, toScore (evaluate_board b color)), k)
  | d + 1, alpha, beta, maximizing, k =>
    let node_color := if maximizing then color else -color
    let moves := get_legal_moves b node_color
    if moves.isEmpty then ((none, toScore (evaluate_board b color)), k)
    else if om k then ((none, toScore (evaluate_board b color)), k + 1)
    else if maximizing then
      abMaxLoopT om (fun b2 a2 b3 k2 => alphabeta_searchT om b2 color d a2 b3 false k2)
        b node_color moves alpha beta none ⊥ (k + 1)
    else
      abMinLoopT om (fun b2 a2 b3 k2 => alphabeta_searchT om b2 color d a2 b3 true k2)
        b node_color moves alpha beta none ⊤ (k + 1)

/-- Root move loop of `OthelloAI._root_search_sequential` with the time
oracle threaded: `break` on a positive check returns the best so far. -/
def seqRootLoopT (om : Nat → Bool)
    (search : Board → Score → Score → Nat → (Option (Int × Int) × Score) × Nat)
    (b : Board) (color : Int) :
    List (Int × Int) → Score → Score → Option (Int × Int) → Score → Nat →
    (Option (Int × Int) × Score) × Nat
  | [], _, _, best, bestScore, k => ((best, bestScore), k)
  | m :: rest, alpha, beta, best, bestScore, k =>
    if om k then ((best, bestScore), k + 1)
    else
      let r := search (apply_move b (some m) color) alpha beta (k + 1)
      let ev := r.1.2
      let best2 := if ev > bestScore ∨ best = none then some m else best
      let bs2 := if ev > bestScore ∨ best = none then ev else bestScore
      seqRootLoopT om search b color rest (max alpha ev) beta best2 bs2 r.2

/-- `OthelloAI._root_search_sequential` with the time oracle threaded. -/
def root_search_sequentialT (om : Nat → Bool) (b : Board) (color : Int)
    (moves : List (Int × Int)) (depth : Nat) (k : Nat) :
    (Option (Int × Int) × Score) × Nat :=
  seqRootLoopT om (fun b2 a2 b3 k2 => alphabeta_searchT om b2 color (depth - 1) a2 b3 false k2)
    b color moves ⊥ ⊤ none ⊥ k

/-- Maximizing loop of the worker-local `alphabeta` with the worker's own
time oracle threaded (the worker checks time only on node entry, not in
its move loop). -/
def wMaxLoopT (search : Board → Score → Score → Nat → Score × Nat)
    (b : Board) (node_color : Int) :
    List (Int × Int) → Score → Score → Score → Nat → Score × Nat
  | [], _, _, value, k => (value, k)
  | m :: rest, alpha, beta, value, k =>
    let r := search (apply_move b (some m) node_color) alpha beta k
    let value2 := max value r.1
    let alpha2 := max alpha r.1
    if beta ≤ alpha2 then (value2, r.2)
    else wMaxLoopT search b node_color rest alpha2 beta value2 r.2

/-- Minimizing loop of the worker-local `alphabeta` with the worker's own
time oracle threaded. -/
def wMinLoopT (search : Board → Score → Score → Nat → Score × Nat)
    (b : Board) (node_color : Int) :
    List (Int × Int) → Score → Score → Score → Nat → Score × Nat
  | [], _, _, value, k => (value, k)
  | m :: rest, alpha, beta, value, k =>
    let r := search (apply_move b (some m) node_color) alpha beta k
    let value2 := min value r.1
    let beta2 := min beta r.1
    if beta2 ≤ alpha then (value2, r.2)
    else wMinLoopT search b node_color rest alpha beta2 value2 r.2

/-- The worker-local `alphabeta` closure of `ai._parallel_worker` with
the worker's own time oracle threaded. -/
def worker_alphabetaT (om : Nat → Bool) (b : Board) (color : Int) :
    Nat → Score → Score → Bool → Nat → Score × Nat
  | 0, _, _, _, k => (toScore (evaluate_board b color), k)
  | d + 1, alpha, beta, maximizing, k =>
    let node_color := if maximizing then color else -color
    let moves := get_legal_moves b node_color
    if moves.isEmpty then (toScore (evaluate_board b color), k)
    else if om k then (toScore (evaluate_board b color), k + 1)
    else if maximizing then
      wMaxLoopT (fun b2 a2 b3 k2 => worker_alphabetaT om b2 color d a2 b3 false k2)
        b node_color moves alpha beta ⊥ (k + 1)
    else
      wMinLoopT (fun b2 a2 b3 k2 => worker_alphabetaT om b2 color d a2 b3 true k2)
        b node_color moves alpha beta ⊤ (k + 1)

/-- `ai._parallel_worker` with the worker's own time oracle (each worker
process starts its own tick counter at 0). -/
def parallel_workerT (om : Nat → Bool) (b : Board) (move : Int × Int)
    (depth : Nat) (color : Int) : (Int × Int) × Score :=
  let new_board := apply_move b (some move) color
  (move, (worker_alphabetaT om new_board color (depth - 1) ⊥ ⊤ false 0).1)

/-- `OthelloAI._root_search_parallel` with oracles threaded: `om` is the
coordinating process's oracle, `Om i` the oracle of the worker handling
the `i`-th root move, `poolOk` models whether `Pool` creation succeeds
(on failure the source falls back to the sequential search), `ncpu`
models `cpu_count()`, and `fallback` is the current `self.best_move`
returned when the deadline has already passed on entry. -/
def root_search_parallelT (om : Nat → Bool) (Om : Nat → Nat → Bool)
    (poolOk : Bool) (ncpu : Nat) (b : Board) (color : Int)
    (fallback : Option (Int × Int)) (moves : List (Int × Int)) (depth : Nat)
    (k : Nat) : (Option (Int × Int) × Score) × Nat :=
  if om k then ((fallback, ⊥), k + 1)
  else if min ncpu moves.length ≤ 1 then root_search_sequentialT om b color moves depth (k + 1)
  else if !poolOk then root_search_sequentialT om b color moves depth (k + 1)
  else
    match moves.enum.map fun im => parallel_workerT (Om im.1) b im.2 depth color with
    | [] => ((none, ⊥), k + 1)
    | r :: rs =>
      let best := pyMaxBySecond r rs
      ((some best.1, best.2), k + 1)

/-- `config.DMAX`. -/
def DMAX : Nat := 9

/-- The iterative deepening loop of `OthelloAI.get_move` over the
remaining depths: check the deadline (`break` on a positive check), run
the sequential or parallel root search, and promote its move to
`best` only if the deadline has still not passed and the move is not
`None`. -/
def get_moveLoop (om : Nat → Bool) (Om : Nat → Nat → Nat → Bool) (poolOk : Bool)
    (ncpu : Nat) (b : Board) (color : Int) (legal : List (Int × Int)) :
    List Nat → Option (Int × Int) → Nat → Option (Int × Int) × Nat
  | [], best, k => (best, k)
  | depth :: rest, best, k =>
    if om k then (best, k + 1)
    else
      let r :=
        if legal.length = 1 ∨ depth = 1 then
          root_search_sequentialT om b color legal depth (k + 1)
        else
          root_search_parallelT om (Om depth) poolOk ncpu b color best legal depth (k + 1)
      let move := r.1.1
      let timeUp := om r.2
      let best2 := if !timeUp && move.isSome then move else best
      get_moveLoop om Om poolOk ncpu b color legal rest best2 (r.2 + 1)

/-- `OthelloAI.get_move`: seed the fallback with the first legal move,
then iterate deepening from depth 1 to `DMAX`; `None` only when the
engine's color has no legal move at all. -/
def get_move (om : Nat → Bool) (Om : Nat → Nat → Nat → Bool) (poolOk : Bool)
    (ncpu : Nat) (b : Board) (color : Int) : Option (Int × Int) :=
  let legal := get_legal_moves b color
  match legal with
  | [] => none
  | m0 :: _ =>
    (get_moveLoop om Om poolOk ncpu b color legal
      ((List.range DMAX).map fun i => i + 1) (some m0) 0).1

/-! ## Basic lemmas about the rules engine -/

lemma coords_valid : ∀ p ∈ coords, is_valid_position p.1 p.2 = true := by decide

lemma is_valid_move_eq_of_mem_coords (b : Board) (color : Int) (p : Int × Int)
    (hp : p ∈ coords) :
    is_valid_move b p.1 p.2 color =
      ((b p.1 p.2 == EMPTY) &&
        DIRECTIONS.any fun d => dir_qualifies b p.1 p.2 d.1 d.2 color) := by
  have hv := coords_valid p hp
  unfold is_valid_move
  rw [hv]
  cases hbe : b p.1 p.2 == EMPTY <;> simp [hbe, bne]

lemma foldl_setCell_apply (v : Int) (l : List (Int × Int)) (b : Board) (i j : Int) :
    (l.foldl (fun bb p => setCell bb p.1 p.2 v) b) i j =
      if (i, j) ∈ l then v else b i j := by
  induction l generalizing b with
  | nil => simp
  | cons p tl ih =>
    simp only [List.foldl_cons]
    rw [ih]
    by_cases h : (i, j) ∈ tl
    · simp [h]
    · by_cases h2 : (i, j) = p
      · subst h2
        simp [h, setCell]
      · simp only [List.mem_cons, h, h2, or_self, if_false, setCell]
        rw [if_neg]
        intro hc
        exact h2 (Prod.ext_iff.mpr ⟨hc.1, hc.2⟩)

lemma apply_move_place (b : Board) (row col color : Int) :
    apply_move b (some (row, col)) color row col = color := by
  have key : ∀ (dirs : List (Int × Int)) (bb : Board), bb row col = color →
      (dirs.foldl (flipDir row col color) bb) row col = color := by
    intro dirs
    induction dirs with
    | nil => intro bb hbb; exact hbb
    | cons d tl ih =>
      intro bb hbb
      simp only [List.foldl_cons]
      apply ih
      unfold flipDir
      split
      · rw [foldl_setCell_apply]
        split <;> simp [hbb]
      · exact hbb
  unfold apply_move
  exact key DIRECTIONS _ (by simp [setCell])

/-- C10: a pass (`make_move(None, color)`) always succeeds, records a pass
history entry, and leaves the board untouched — with no check that the
passing color actually has no legal moves. -/
theorem make_move_pass (b : Board) (h : List HistEntry) (color : Int) :
    make_move b h none color = (true, b, ⟨none, color, []⟩ :: h) := rfl

/-- C9: on any board, the two legal-move generators (`legal_moves` on the
game's own board and the board-passing `get_legal_moves`) return the same
list, element for element and in the same order. -/
theorem legal_moves_eq_get_legal_moves (b : Board) (color : Int) :
    legal_moves b color = get_legal_moves b color := by
  unfold legal_moves get_legal_moves
  exact List.filter_congr fun p hp => is_valid_move_eq_of_mem_coords b color p hp

lemma legal_moves_nil_of_full (b : Board)
    (hfull : ∀ i j : Int, is_valid_position i j = true → b i j ≠ EMPTY) (color : Int) :
    legal_moves b color = [] := by
  unfold legal_moves
  rw [List.filter_eq_nil_iff]
  intro p hp hvm
  rw [is_valid_move_eq_of_mem_coords b color p hp] at hvm
  have hee : (b p.1 p.2 == EMPTY) = true := (Bool.and_eq_true _ _ |>.mp hvm).1
  exact hfull p.1 p.2 (coords_valid p hp) (beq_iff_eq.mp hee)

/-- C4: `is_game_over` is true exactly when both colors have zero legal
moves; in particular it is false whenever some color still has a legal
move (a single exhausted color is a pass, not game end), and a board with
every in-bounds cell non-empty is always game-over. -/
theorem is_game_over_spec :
    (∀ b : Board, is_game_over b = true ↔
        legal_moves b BLACK = [] ∧ legal_moves b WHITE = []) ∧
    (∀ (b : Board) (c : Int), (c = BLACK ∨ c = WHITE) → legal_moves b c ≠ [] →
        is_game_over b = false) ∧
    (∀ b : Board, (∀ i j : Int, is_valid_position i j = true → b i j ≠ EMPTY) →
        is_game_over b = true) := by
  refine ⟨fun b => ?_, fun b c hc hne => ?_, fun b hfull => ?_⟩
  · simp [is_game_over, List.isEmpty_iff]
  · have : ¬ (legal_moves b c).isEmpty = true := fun hh => hne (List.isEmpty_iff.mp hh)
    rcases hc with rfl | rfl
    · simp only [is_game_over, Bool.and_eq_false_iff]
      exact Or.inl (Bool.not_eq_true _ |>.mp this)
    · simp only [is_game_over, Bool.and_eq_false_iff]
      exact Or.inr (Bool.not_eq_true _ |>.mp this)
  · unfold is_game_over
    rw [legal_moves_nil_of_full b hfull BLACK, legal_moves_nil_of_full b hfull WHITE]
    rfl

/-- Witness for C4 at concrete inputs: the start position (Black has legal
moves) is not game-over, and an all-Black board is game-over. -/
theorem is_game_over_spec_witness :
    is_game_over startBoard = false ∧ is_game_over (fun _ _ => BLACK) = true :=
  ⟨is_game_over_spec.2.1 startBoard BLACK (Or.inl rfl) (by decide),
   is_game_over_spec.2.2 (fun _ _ => BLACK) (fun _ _ _ => show BLACK ≠ EMPTY by decide)⟩

/-- C1 (amended): `make_move` rejects an illegal placement, returning
`False` and leaving board and history unchanged; `apply_move`, by
contrast, performs no legality check and places the disc at the target
cell even for an illegal move. -/
theorem make_move_illegal_no_change (b : Board) (h : List HistEntry)
    (row col color : Int) (hv : is_valid_move b row col color = false) :
    make_move b h (some (row, col)) color = (false, b, h) ∧
    apply_move b (some (row, col)) color row col = color := by
  constructor
  · simp [make_move, hv]
  · exact apply_move_place b row col color

/-- Counterexample to C1 as stated: `(0,0)` is not a legal move for Black
on the start position, yet `apply_move` does not return the input board
(and raises no exception — the source has no legality check there): it
returns a board with a Black disc placed at `(0,0)`. -/
theorem apply_move_illegal_changes_board :
    is_valid_move startBoard 0 0 BLACK = false ∧
    apply_move startBoard (some (0, 0)) BLACK ≠ startBoard := by
  refine ⟨by decide, fun hEq => ?_⟩
  have h1 : apply_move startBoard (some (0, 0)) BLACK 0 0 = BLACK :=
    apply_move_place startBoard 0 0 BLACK
  rw [hEq] at h1
  exact absurd h1 (by decide)

/-- Witness for the amended C1 at a concrete illegal move. -/
theorem make_move_illegal_no_change_witness :
    is_valid_move startBoard 0 1 BLACK = false ∧
    (make_move startBoard [] (some (0, 1)) BLACK = (false, startBoard, []) ∧
     apply_move startBoard (some (0, 1)) BLACK 0 1 = BLACK) :=
  ⟨by decide, make_move_illegal_no_change startBoard [] 0 1 BLACK (by decide)⟩

/-- Counterexample to C8 as stated: under this code's start position
((3,3)=Black, (3,4)=White, (4,3)=White, (4,4)=Black, row 0 at the
bottom), `(2,3)` is NOT a legal move for Black and flips nothing
(`make_move` rejects it). -/
theorem start_move_2_3_illegal :
    is_valid_move startBoard 2 3 BLACK = false ∧
    flip_discs startBoard 2 3 BLACK = [] ∧
    make_move startBoard [] (some (2, 3)) BLACK = (false, startBoard, []) := by
  refine ⟨by decide, by decide, ?_⟩
  simp [make_move, (by decide : is_valid_move startBoard 2 3 BLACK = false)]

/-- C8 (amended): from the start position, Black playing `(2,4)` flips
exactly the one White disc at `(3,4)`, and the resulting board holds
4 Black discs and 1 White disc. -/
theorem start_move_2_4_flips_one :
    flip_discs startBoard 2 4 BLACK = [(3, 4)] ∧
    startBoard 3 4 = WHITE ∧
    count_discs (make_move startBoard [] (some (2, 4)) BLACK).2.1 = (4, 1) := by
  refine ⟨by decide, by decide, by decide⟩

lemma is_valid_move_eq_true_iff (b : Board) (row col color : Int) :
    is_valid_move b row col color = true ↔
      is_valid_position row col = true ∧ b row col = EMPTY ∧
        ∃ d ∈ DIRECTIONS, dir_qualifies b row col d.1 d.2 color = true := by
  unfold is_valid_move
  cases hp : is_valid_position row col
  · simp [hp]
  · cases he : b row col == EMPTY
    · simp [bne, he, beq_eq_false_iff_ne.mp he]
    · simp [bne, he, beq_iff_eq.mp he, List.any_eq_true]

lemma flip_discs_ne_nil_of_valid (b : Board) (row col color : Int)
    (hv : is_valid_move b row col color = true) :
    flip_discs b row col color ≠ [] := by
  obtain ⟨hp, he, d, hd, hq⟩ := (is_valid_move_eq_true_iff b row col color).mp hv
  have hrun : collectRay b d.1 d.2 (get_opponent color) (row + d.1) (col + d.2) 8 ≠ [] := by
    simp only [dir_qualifies] at hq
    have h1 := (Bool.and_eq_true _ _ |>.mp hq).1
    have h2 := (Bool.and_eq_true _ _ |>.mp h1).1
    intro hnil
    rw [hnil] at h2
    simp at h2
  obtain ⟨x, hx⟩ := List.exists_mem_of_ne_nil _ hrun
  intro hnil
  have hmem : x ∈ flip_discs b row col color := by
    unfold flip_discs
    rw [hv]
    simp only [Bool.not_true, Bool.false_eq_true, if_false]
    exact List.mem_flatMap.mpr ⟨d, hd, by rw [if_pos hq]; exact hx⟩
  rw [hnil] at hmem
  simp at hmem

/-- C3: a move is legal for a color exactly when it flips at least one
opposing disc (`flip_discs` is non-empty), and `legal_moves` is exactly
the row-major filter of the board's cells by that criterion. -/
theorem legal_iff_flips (b : Board) (color : Int) :
    (∀ row col : Int, is_valid_move b row col color = true ↔
        flip_discs b row col color ≠ []) ∧
    legal_moves b color =
      coords.filter fun p => !(flip_discs b p.1 p.2 color).isEmpty := by
  have key : ∀ row col : Int,
      is_valid_move b row col color = true ↔ flip_discs b row col color ≠ [] := by
    intro row col
    constructor
    · exact flip_discs_ne_nil_of_valid b row col color
    · intro hne
      by_contra hv
      have hv2 : is_valid_move b row col color = false := Bool.not_eq_true _ |>.mp hv
      exact hne (by simp [flip_discs, hv2])
  refine ⟨key, ?_⟩
  unfold legal_moves
  apply List.filter_congr
  intro p hp
  apply Bool.coe_iff_coe.mp
  rw [key p.1 p.2]
  simp [List.isEmpty_iff, Bool.not_eq_true']

lemma collectRay_mem_opp (b : Board) (dr dc opp : Int) :
    ∀ (f : Nat) (r c : Int) (p : Int × Int), p ∈ collectRay b dr dc opp r c f →
      b p.1 p.2 = opp := by
  intro f
  induction f with
  | zero => intro r c p hp; simp [collectRay] at hp
  | succ f ih =>
    intro r c p hp
    simp only [collectRay] at hp
    by_cases hcond : (is_valid_position r c && (b r c == opp)) = true
    · rw [if_pos hcond] at hp
      rcases List.mem_cons.mp hp with rfl | hp2
      · exact beq_iff_eq.mp (Bool.and_eq_true _ _ |>.mp hcond).2
      · exact ih _ _ _ hp2
    · rw [if_neg hcond] at hp
      simp at hp

lemma flip_discs_mem_opp (b : Board) (row col color : Int) (p : Int × Int)
    (hp : p ∈ flip_discs b row col color) :
    b p.1 p.2 = get_opponent color := by
  unfold flip_discs at hp
  split at hp
  · simp at hp
  · obtain ⟨d, _, hpd⟩ := List.mem_flatMap.mp hp
    split at hpd
    · exact collectRay_mem_opp b d.1 d.2 _ 8 _ _ p hpd
    · simp at hpd

/-- C2: a legal move made with `make_move` and then undone with
`undo_last_move` restores every cell of the board and pops the history
entry — undo is the exact inverse of apply. -/
theorem make_undo_inverse (b : Board) (h : List HistEntry) (row col color : Int)
    (hv : is_valid_move b row col color = true) :
    (make_move b h (some (row, col)) color).1 = true ∧
    undo_last_move (make_move b h (some (row, col)) color).2.1
      (make_move b h (some (row, col)) color).2.2 = (true, b, h) := by
  have hempty : b row col = EMPTY :=
    ((is_valid_move_eq_true_iff b row col color).mp hv).2.1
  have hmk : make_move b h (some (row, col)) color =
      (true,
       (flip_discs b row col color).foldl (fun bb p => setCell bb p.1 p.2 color)
         (setCell b row col color),
       ⟨some (row, col), color, flip_discs b row col color⟩ :: h) := by
    simp [make_move, hv]
  rw [hmk]
  refine ⟨rfl, ?_⟩
  simp only [undo_last_move]
  refine Prod.ext rfl (Prod.ext ?_ rfl)
  show (flip_discs b row col color).foldl
      (fun bb p => setCell bb p.1 p.2 (get_opponent color))
      (setCell ((flip_discs b row col color).foldl
        (fun bb p => setCell bb p.1 p.2 color) (setCell b row col color))
        row col EMPTY) = b
  funext i j
  rw [foldl_setCell_apply]
  by_cases hmem : (i, j) ∈ flip_discs b row col color
  · rw [if_pos hmem]
    exact (flip_discs_mem_opp b row col color (i, j) hmem).symm
  · rw [if_neg hmem]
    show (if i = row ∧ j = col then EMPTY else _) = b i j
    by_cases hij : i = row ∧ j = col
    · rw [if_pos hij]
      rcases hij with ⟨rfl, rfl⟩
      exact hempty.symm
    · rw [if_neg hij]
      rw [foldl_setCell_apply, if_neg hmem]
      show (if i = row ∧ j = col then color else b i j) = b i j
      rw [if_neg hij]

/-- Witness for C2: make then undo of the legal opening move `(2,4)` for
Black restores the start position and the empty history. -/
theorem make_undo_inverse_witness :
    is_valid_move startBoard 2 4 BLACK = true ∧
    ((make_move startBoard [] (some (2, 4)) BLACK).1 = true ∧
     undo_last_move (make_move startBoard [] (some (2, 4)) BLACK).2.1
       (make_move startBoard [] (some (2, 4)) BLACK).2.2 = (true, startBoard, [])) :=
  ⟨by decide, make_undo_inverse startBoard [] 2 4 BLACK (by decide)⟩

/-! ## C5: deadline safety of `get_move` -/

lemma pyMaxBySecond_mem :
    ∀ (rs : List ((Int × Int) × Score)) (r : (Int × Int) × Score),
      pyMaxBySecond r rs ∈ r :: rs := by
  intro rs
  induction rs with
  | nil => intro r; simp [pyMaxBySecond]
  | cons x rest ih =>
    intro r
    simp only [pyMaxBySecond]
    rcases List.mem_cons.mp (ih (if x.2 > r.2 then x else r)) with heq | hmem
    · rw [heq]
      split
      · exact List.mem_cons_of_mem _ (List.mem_cons_self _ _)
      · exact List.mem_cons_self _ _
    · exact List.mem_cons_of_mem _ (List.mem_cons_of_mem _ hmem)

lemma seqRootLoopT_move (om : Nat → Bool)
    (search : Board → Score → Score → Nat → (Option (Int × Int) × Score) × Nat)
    (b : Board) (color : Int) :
    ∀ (ms : List (Int × Int)) (alpha beta : Score) (best : Option (Int × Int))
      (bs : Score) (k : Nat),
      (seqRootLoopT om search b color ms alpha beta best bs k).1.1 = best ∨
      ∃ m ∈ ms, (seqRootLoopT om search b color ms alpha beta best bs k).1.1 = some m := by
  intro ms
  induction ms with
  | nil => intro alpha beta best bs k; left; rfl
  | cons m rest ih =>
    intro alpha beta best bs k
    simp only [seqRootLoopT]
    by_cases hom : om k = true
    · rw [if_pos hom]; left; rfl
    · rw [if_neg hom]
      by_cases hup :
          (search (apply_move b (some m) color) alpha beta (k + 1)).1.2 > bs ∨ best = none
      · simp only [if_pos hup]
        rcases ih (max alpha (search (apply_move b (some m) color) alpha beta (k + 1)).1.2)
            beta (some m) (search (apply_move b (some m) color) alpha beta (k + 1)).1.2
            (search (apply_move b (some m) color) alpha beta (k + 1)).2 with h | ⟨m2, hm2, h⟩
        · right; exact ⟨m, List.mem_cons_self _ _, h⟩
        · right; exact ⟨m2, List.mem_cons_of_mem _ hm2, h⟩
      · simp only [if_neg hup]
        rcases ih (max alpha (search (apply_move b (some m) color) alpha beta (k + 1)).1.2)
            beta best bs
            (search (apply_move b (some m) color) alpha beta (k + 1)).2 with h | ⟨m2, hm2, h⟩
        · left; exact h
        · right; exact ⟨m2, List.mem_cons_of_mem _ hm2, h⟩

lemma root_search_sequentialT_move (om : Nat → Bool) (b : Board) (color : Int)
    (moves : List (Int × Int)) (depth k : Nat) :
    (root_search_sequentialT om b color moves depth k).1.1 = none ∨
    ∃ m ∈ moves, (root_search_sequentialT om b color moves depth k).1.1 = some m :=
  seqRootLoopT_move om _ b color moves ⊥ ⊤ none ⊥ k

lemma root_search_parallelT_move (om : Nat → Bool) (Om : Nat → Nat → Bool)
    (poolOk : Bool) (ncpu : Nat) (b : Board) (color : Int)
    (fallback : Option (Int × Int)) (moves : List (Int × Int)) (depth k : Nat) :
    (root_search_parallelT om Om poolOk ncpu b color fallback moves depth k).1.1 = fallback ∨
    (root_search_parallelT om Om poolOk ncpu b color fallback moves depth k).1.1 = none ∨
    ∃ m ∈ moves,
      (root_search_parallelT om Om poolOk ncpu b color fallback moves depth k).1.1 = some m := by
  unfold root_search_parallelT
  by_cases h1 : om k = true
  · rw [if_pos h1]; left; rfl
  · rw [if_neg h1]
    by_cases h2 : min ncpu moves.length ≤ 1
    · rw [if_pos h2]; right; exact root_search_sequentialT_move om b color moves depth (k + 1)
    · rw [if_neg h2]
      cases hpk : poolOk
      · rw [if_pos (show (!(false : Bool)) = true from rfl)]
        right; exact root_search_sequentialT_move om b color moves depth (k + 1)
      · rw [if_neg (show ¬((!(true : Bool)) = true) from by simp)]
        cases hres : moves.enum.map fun im => parallel_workerT (Om im.1) b im.2 depth color with
        | nil => right; left; rfl
        | cons r rs =>
          right; right
          have hmem := pyMaxBySecond_mem rs r
          rw [← hres] at hmem
          obtain ⟨im, him, heq⟩ := List.mem_map.mp hmem
          refine ⟨im.2, ?_, ?_⟩
          · exact List.getElem?_mem (List.mem_enum_iff_getElem?.mp him)
          · show some (pyMaxBySecond r rs).1 = _
            rw [← heq]
            rfl

lemma get_moveLoop_mem (om : Nat → Bool) (Om : Nat → Nat → Nat → Bool)
    (poolOk : Bool) (ncpu : Nat) (b : Board) (color : Int) (legal : List (Int × Int)) :
    ∀ (depths : List Nat) (best : Option (Int × Int)) (k : Nat) (m : Int × Int),
      best = some m → m ∈ legal →
      ∃ m2, (get_moveLoop om Om poolOk ncpu b color legal depths best k).1 = some m2 ∧
        m2 ∈ legal := by
  intro depths
  induction depths with
  | nil => intro best k m hb hm; exact ⟨m, hb, hm⟩
  | cons dep rest ih =>
    intro best k m hb hm
    simp only [get_moveLoop]
    by_cases hom : om k = true
    · rw [if_pos hom]; exact ⟨m, hb, hm⟩
    · rw [if_neg hom]
      by_cases hdep : legal.length = 1 ∨ dep = 1
      · -- sequential branch
        rw [if_pos hdep]
        by_cases hcond : (!(om (root_search_sequentialT om b color legal dep (k + 1)).2) &&
            (root_search_sequentialT om b color legal dep (k + 1)).1.1.isSome) = true
        · rw [if_pos hcond]
          rcases root_search_sequentialT_move om b color legal dep (k + 1) with h0 | ⟨m2, hm2, h0⟩
          · rw [h0] at hcond; simp at hcond
          · exact ih _ _ m2 h0 hm2
        · rw [if_neg hcond]
          exact ih _ _ m hb hm
      · -- parallel branch
        rw [if_neg hdep]
        by_cases hcond : (!(om (root_search_parallelT om (Om dep) poolOk ncpu b color best legal
              dep (k + 1)).2) &&
            (root_search_parallelT om (Om dep) poolOk ncpu b color best legal
              dep (k + 1)).1.1.isSome) = true
        · rw [if_pos hcond]
          rcases root_search_parallelT_move om (Om dep) poolOk ncpu b color best legal
              dep (k + 1) with h0 | h0 | ⟨m2, hm2, h0⟩
          · rw [h0, hb]
            exact ih _ _ m rfl hm
          · rw [h0] at hcond; simp at hcond
          · exact ih _ _ m2 h0 hm2
        · rw [if_neg hcond]
          exact ih _ _ m hb hm

/-- C5: whenever the engine's color has at least one legal move,
`get_move` returns some legal move — never `None` — for EVERY behaviour
of the deadline checks (including a deadline that has already passed
before any search runs), every worker-oracle family, any `cpu_count`,
and regardless of pool-creation failure: the first legal move is
pre-seeded as the fallback and a result arriving after the deadline is
never promoted. -/
theorem get_move_returns_legal (om : Nat → Bool) (Om : Nat → Nat → Nat → Bool)
    (poolOk : Bool) (ncpu : Nat) (b : Board) (color : Int)
    (hne : get_legal_moves b color ≠ []) :
    ∃ m, get_move om Om poolOk ncpu b color = some m ∧ m ∈ get_legal_moves b color := by
  unfold get_move
  cases hl : get_legal_moves b color with
  | nil => exact absurd hl hne
  | cons m0 rest =>
    obtain ⟨m2, h1, h2⟩ := get_moveLoop_mem om Om poolOk ncpu b color (m0 :: rest)
      ((List.range DMAX).map fun i => i + 1) (some m0) 0 m0 rfl (List.mem_cons_self _ _)
    exact ⟨m2, h1, h2⟩

/-- Witness for C5: a deadline oracle that says "time exceeded" at every
single check still yields a legal move from the start position. -/
theorem get_move_returns_legal_witness :
    get_legal_moves startBoard BLACK ≠ [] ∧
    ∃ m, get_move (fun _ => true) (fun _ _ _ => true) false 4 startBoard BLACK = some m ∧
      m ∈ get_legal_moves startBoard BLACK :=
  ⟨by decide,
   get_move_returns_legal (fun _ => true) (fun _ _ _ => true) false 4 startBoard BLACK
     (by decide)⟩

/-! ## C6/C7 groundwork: finiteness of search scores

Every score actually returned by a search node is a finite integer
evaluation: leaves return `toScore (evaluate_board ..)`, and an interior
node's accumulator is seeded by its first child (the `or best is None`
arm of the update), so the `±math.inf` sentinels never escape. -/

/-- A score that is a finite integer (not a `±math.inf` sentinel). -/
def FinS (s : Score) : Prop := ∃ n : ℤ, s = toScore n

lemma FinS_toScore (n : ℤ) : FinS (toScore n) := ⟨n, rfl⟩

lemma FinS.ne_bot {s : Score} (h : FinS s) : s ≠ ⊥ := by
  obtain ⟨n, rfl⟩ := h; exact WithBot.coe_ne_bot

lemma FinS.bot_lt {s : Score} (h : FinS s) : ⊥ < s := by
  obtain ⟨n, rfl⟩ := h; exact WithBot.bot_lt_coe _

lemma FinS.lt_top {s : Score} (h : FinS s) : s < ⊤ := by
  obtain ⟨n, rfl⟩ := h
  have h1 : ((↑n : WithTop ℤ) : Score) < ((⊤ : WithTop ℤ) : Score) :=
    WithBot.coe_lt_coe.mpr (WithTop.coe_lt_top n)
  rwa [WithBot.coe_top] at h1

lemma FinS.ne_top {s : Score} (h : FinS s) : s ≠ ⊤ := ne_top_of_lt h.lt_top

lemma abMaxLoop_finite (search : Board → Score → Score → Option (Int × Int) × Score)
    (hs : ∀ b2 lo hi, FinS ((search b2 lo hi).2)) (b : Board) (nc : Int) :
    ∀ (ms : List (Int × Int)) (lo hi : Score) (best : Option (Int × Int)) (acc : Score),
      (FinS acc ∨ (best = none ∧ ms ≠ [])) →
      FinS ((abMaxLoop search b nc ms lo hi best acc).2) := by
  intro ms
  induction ms with
  | nil =>
    intro lo hi best acc hinv
    rcases hinv with h | ⟨_, hne⟩
    · exact h
    · exact absurd rfl hne
  | cons m rest ih =>
    intro lo hi best acc hinv
    simp only [abMaxLoop]
    by_cases hup : (search (apply_move b (some m) nc) lo hi).2 > acc ∨ best = none
    · simp only [if_pos hup]
      split
      · exact hs _ _ _
      · exact ih _ _ (some m) _ (Or.inl (hs _ _ _))
    · simp only [if_neg hup]
      have hfa : FinS acc := by
        rcases hinv with h | ⟨hbn, _⟩
        · exact h
        · exact absurd (Or.inr hbn) hup
      split
      · exact hfa
      · exact ih _ _ best _ (Or.inl hfa)

lemma abMinLoop_finite (search : Board → Score → Score → Option (Int × Int) × Score)
    (hs : ∀ b2 lo hi, FinS ((search b2 lo hi).2)) (b : Board) (nc : Int) :
    ∀ (ms : List (Int × Int)) (lo hi : Score) (best : Option (Int × Int)) (acc : Score),
      (FinS acc ∨ (best = none ∧ ms ≠ [])) →
      FinS ((abMinLoop search b nc ms lo hi best acc).2) := by
  intro ms
  induction ms with
  | nil =>
    intro lo hi best acc hinv
    rcases hinv with h | ⟨_, hne⟩
    · exact h
    · exact absurd rfl hne
  | cons m rest ih =>
    intro lo hi best acc hinv
    simp only [abMinLoop]
    by_cases hup : (search (apply_move b (some m) nc) lo hi).2 < acc ∨ best = none
    · simp only [if_pos hup]
      split
      · exact hs _ _ _
      · exact ih _ _ (some m) _ (Or.inl (hs _ _ _))
    · simp only [if_neg hup]
      have hfa : FinS acc := by
        rcases hinv with h | ⟨hbn, _⟩
        · exact h
        · exact absurd (Or.inr hbn) hup
      split
      · exact hfa
      · exact ih _ _ best _ (Or.inl hfa)

lemma mmMaxLoop_finite (msearch : Board → Option (Int × Int) × Score)
    (hs : ∀ b2, FinS ((msearch b2).2)) (b : Board) (nc : Int) :
    ∀ (ms : List (Int × Int)) (best : Option (Int × Int)) (acc : Score),
      (FinS acc ∨ (best = none ∧ ms ≠ [])) →
      FinS ((mmMaxLoop msearch b nc ms best acc).2) := by
  intro ms
  induction ms with
  | nil =>
    intro best acc hinv
    rcases hinv with h | ⟨_, hne⟩
    · exact h
    · exact absurd rfl hne
  | cons m rest ih =>
    intro best acc hinv
    simp only [mmMaxLoop]
    by_cases hup : (msearch (apply_move b (some m) nc)).2 > acc ∨ best = none
    · simp only [if_pos hup]
      exact ih (some m) _ (Or.inl (hs _))
    · simp only [if_neg hup]
      have hfa : FinS acc := by
        rcases hinv with h | ⟨hbn, _⟩
        · exact h
        · exact absurd (Or.inr hbn) hup
      exact ih best _ (Or.inl hfa)

lemma mmMinLoop_finite (msearch : Board → Option (Int × Int) × Score)
    (hs : ∀ b2, FinS ((msearch b2).2)) (b : Board) (nc : Int) :
    ∀ (ms : List (Int × Int)) (best : Option (Int × Int)) (acc : Score),
      (FinS acc ∨ (best = none ∧ ms ≠ [])) →
      FinS ((mmMinLoop msearch b nc ms best acc).2) := by
  intro ms
  induction ms with
  | nil =>
    intro best acc hinv
    rcases hinv with h | ⟨_, hne⟩
    · exact h
    · exact absurd rfl hne
  | cons m rest ih =>
    intro best acc hinv
    simp only [mmMinLoop]
    by_cases hup : (msearch (apply_move b (some m) nc)).2 < acc ∨ best = none
    · simp only [if_pos hup]
      exact ih (some m) _ (Or.inl (hs _))
    · simp only [if_neg hup]
      have hfa : FinS acc := by
        rcases hinv with h | ⟨hbn, _⟩
        · exact h
        · exact absurd (Or.inr hbn) hup
      exact ih best _ (Or.inl hfa)

lemma alphabeta_finite (color : Int) :
    ∀ (d : Nat) (b : Board) (lo hi : Score) (mx : Bool),
      FinS ((alphabeta_search b color d lo hi mx).2) := by
  intro d
  induction d with
  | zero => intro b lo hi mx; exact FinS_toScore _
  | succ d ih =>
    intro b lo hi mx
    simp only [alphabeta_search]
    by_cases hemp : (get_legal_moves b (if mx then color else -color)).isEmpty = true
    · rw [if_pos hemp]; exact FinS_toScore _
    · rw [if_neg hemp]
      have hne : get_legal_moves b (if mx then color else -color) ≠ [] :=
        fun hh => hemp (List.isEmpty_iff.mpr hh)
      cases mx
      · exact abMinLoop_finite _ (fun b2 lo2 hi2 => ih b2 lo2 hi2 true) b _ _ lo hi none ⊤
          (Or.inr ⟨rfl, hne⟩)
      · exact abMaxLoop_finite _ (fun b2 lo2 hi2 => ih b2 lo2 hi2 false) b _ _ lo hi none ⊥
          (Or.inr ⟨rfl, hne⟩)

lemma minimax_finite (color : Int) :
    ∀ (d : Nat) (b : Board) (mx : Bool), FinS ((minimax_search b color d mx).2) := by
  intro d
  induction d with
  | zero => intro b mx; exact FinS_toScore _
  | succ d ih =>
    intro b mx
    simp only [minimax_search]
    by_cases hemp : (get_legal_moves b (if mx then color else -color)).isEmpty = true
    · rw [if_pos hemp]; exact FinS_toScore _
    · rw [if_neg hemp]
      have hne : get_legal_moves b (if mx then color else -color) ≠ [] :=
        fun hh => hemp (List.isEmpty_iff.mpr hh)
      cases mx
      · exact mmMinLoop_finite _ (fun b2 => ih b2 true) b _ _ none ⊤ (Or.inr ⟨rfl, hne⟩)
      · exact mmMaxLoop_finite _ (fun b2 => ih b2 false) b _ _ none ⊥ (Or.inr ⟨rfl, hne⟩)

/-! ## C6/C7 core: the Knuth–Moore bounds relating alpha-beta to minimax -/

/-- The classical fail-soft alpha-beta specification: against the window
`(lo, hi)`, a returned score `g` that fails low upper-bounds the true
value `v`, one that fails high lower-bounds it, and one inside the
window equals it. -/
def KMrel (g v lo hi : Score) : Prop :=
  (g ≤ lo → v ≤ g) ∧ (hi ≤ g → g ≤ v) ∧ (lo < g → g < hi → g = v)

lemma mmMaxLoop_le (msearch : Board → Option (Int × Int) × Score) (b : Board) (nc : Int) :
    ∀ (ms : List (Int × Int)) (best : Option (Int × Int)) (acc : Score),
      (best = none → acc = ⊥) →
      acc ≤ (mmMaxLoop msearch b nc ms best acc).2 := by
  intro ms
  induction ms with
  | nil => intro best acc _; exact le_refl _
  | cons m rest ih =>
    intro best acc h
    simp only [mmMaxLoop]
    by_cases hup : (msearch (apply_move b (some m) nc)).2 > acc ∨ best = none
    · simp only [if_pos hup]
      refine le_trans ?_ (ih (some m) _ (by simp))
      rcases hup with h1 | h1
      · exact le_of_lt h1
      · rw [h h1]; exact bot_le
    · simp only [if_neg hup]
      exact ih best acc h

lemma mmMinLoop_le (msearch : Board → Option (Int × Int) × Score) (b : Board) (nc : Int) :
    ∀ (ms : List (Int × Int)) (best : Option (Int × Int)) (acc : Score),
      (best = none → acc = ⊤) →
      (mmMinLoop msearch b nc ms best acc).2 ≤ acc := by
  intro ms
  induction ms with
  | nil => intro best acc _; exact le_refl _
  | cons m rest ih =>
    intro best acc h
    simp only [mmMinLoop]
    by_cases hup : (msearch (apply_move b (some m) nc)).2 < acc ∨ best = none
    · simp only [if_pos hup]
      refine le_trans (ih (some m) _ (by simp)) ?_
      rcases hup with h1 | h1
      · exact le_of_lt h1
      · rw [h h1]; exact le_top
    · simp only [if_neg hup]
      exact ih best acc h

lemma abMaxLoop_KM (search : Board → Score → Score → Option (Int × Int) × Score)
    (msearch : Board → Option (Int × Int) × Score)
    (hrel : ∀ b2 lo hi, lo < hi → KMrel ((search b2 lo hi).2) ((msearch b2).2) lo hi)
    (hfin : ∀ b2 lo hi, FinS ((search b2 lo hi).2))
    (hmfin : ∀ b2, FinS ((msearch b2).2))
    (b : Board) (nc : Int) (lo0 hi : Score) :
    ∀ (ms : List (Int × Int)) (lo : Score) (best bestM : Option (Int × Int))
      (acc accM : Score),
      lo = max lo0 acc → lo < hi →
      accM ≤ acc → acc ≤ max lo0 accM →
      (best = none → acc = ⊥) → (bestM = none → accM = ⊥) →
      KMrel ((abMaxLoop search b nc ms lo hi best acc).2)
            ((mmMaxLoop msearch b nc ms bestM accM).2) lo0 hi := by
  intro ms
  induction ms with
  | nil =>
    intro lo best bestM acc accM hloeq hlohi hMa haM _ _
    refine ⟨fun _ => hMa, fun hhi => ?_, fun hlt _ => ?_⟩
    · -- hi ≤ acc contradicts acc ≤ lo < hi
      exact absurd (lt_of_le_of_lt (le_trans hhi (hloeq ▸ le_max_right lo0 acc)) hlohi)
        (lt_irrefl hi)
    · -- lo0 < acc forces acc ≤ accM
      refine le_antisymm ?_ hMa
      rcases max_cases lo0 accM with ⟨hmx, _⟩ | ⟨hmx, _⟩
      · rw [hmx] at haM; exact absurd (lt_of_lt_of_le hlt haM) (lt_irrefl _)
      · rwa [hmx] at haM
  | cons m rest ih =>
    intro lo best bestM acc accM hloeq hlohi hMa haM hbn hbMn
    simp only [abMaxLoop, mmMaxLoop]
    have hKM := hrel (apply_move b (some m) nc) lo hi hlohi
    have hgfin := hfin (apply_move b (some m) nc) lo hi
    have hvfin := hmfin (apply_move b (some m) nc)
    set g := (search (apply_move b (some m) nc) lo hi).2 with hgdef
    set v := (msearch (apply_move b (some m) nc)).2 with hvdef
    -- the alpha-beta accumulator update is a plain max
    have haccA : (if g > acc ∨ best = none then g else acc) = max acc g := by
      by_cases h1 : g > acc
      · rw [if_pos (Or.inl h1), max_eq_right (le_of_lt h1)]
      · have hga : g ≤ acc := le_of_not_lt h1
        rw [max_eq_left hga]
        by_cases h2 : best = none
        · exact absurd (le_bot_iff.mp ((hbn h2) ▸ hga)) hgfin.ne_bot
        · rw [if_neg (not_or.mpr ⟨h1, h2⟩)]
    have haccM : (if v > accM ∨ bestM = none then v else accM) = max accM v := by
      by_cases h1 : v > accM
      · rw [if_pos (Or.inl h1), max_eq_right (le_of_lt h1)]
      · have hva : v ≤ accM := le_of_not_lt h1
        rw [max_eq_left hva]
        by_cases h2 : bestM = none
        · exact absurd (le_bot_iff.mp ((hbMn h2) ▸ hva)) hvfin.ne_bot
        · rw [if_neg (not_or.mpr ⟨h1, h2⟩)]
    rw [haccA, haccM]
    by_cases hcut : hi ≤ max lo g
    · rw [if_pos hcut]
      -- cutoff: the child failed high
      have hgb : hi ≤ g := by
        rcases le_max_iff.mp hcut with h1 | h1
        · exact absurd (lt_of_le_of_lt h1 hlohi) (lt_irrefl hi)
        · exact h1
      have hacc2 : max acc g = g :=
        max_eq_right (le_of_lt (lt_of_le_of_lt
          (le_trans (hloeq ▸ le_max_right lo0 acc) (le_refl lo))
          (lt_of_lt_of_le hlohi hgb)))
      rw [hacc2]
      have hgv : g ≤ v := hKM.2.1 hgb
      have hvM : v ≤ max accM v := le_max_right _ _
      have hmm : max accM v ≤ (mmMaxLoop msearch b nc rest
          (if v > accM ∨ bestM = none then some m else bestM) (max accM v)).2 := by
        apply mmMaxLoop_le
        intro hcontra
        by_cases h2 : v > accM ∨ bestM = none
        · rw [if_pos h2] at hcontra; exact absurd hcontra (by simp)
        · rw [if_neg h2] at hcontra
          exact absurd (Or.inr hcontra) h2
      have hgtail : g ≤ (mmMaxLoop msearch b nc rest
          (if v > accM ∨ bestM = none then some m else bestM) (max accM v)).2 :=
        le_trans hgv (le_trans hvM hmm)
      refine ⟨fun hle => ?_, fun _ => hgtail, fun _ hlt => ?_⟩
      · -- g ≤ lo0 is impossible: lo0 ≤ lo < hi ≤ g
        exact absurd (lt_of_le_of_lt (le_trans hgb hle)
          (lt_of_le_of_lt (hloeq ▸ le_max_left lo0 acc) hlohi)) (lt_irrefl _)
      · exact absurd (lt_of_le_of_lt hgb hlt) (lt_irrefl _)
    · rw [if_neg hcut]
      -- no cutoff: recurse with updated state
      have hlo2 : max lo g = max lo0 (max acc g) := by
        rw [hloeq, max_assoc]
      have hlohi2 : max lo g < hi := lt_of_not_le hcut
      have hgh : g < hi := lt_of_le_of_lt (le_max_right lo g) hlohi2
      have hvg : v ≤ g := by
        by_cases hga : g ≤ lo
        · exact hKM.1 hga
        · exact le_of_eq (hKM.2.2 (lt_of_not_le hga) hgh).symm
      have hMa2 : max accM v ≤ max acc g := max_le_max hMa hvg
      have haM2 : max acc g ≤ max lo0 (max accM v) := by
        apply max_le
        · exact le_trans haM (max_le_max (le_refl lo0) (le_max_left accM v))
        · by_cases hga : g ≤ lo
          · refine le_trans hga ?_
            rw [hloeq]
            apply max_le (le_max_left _ _)
            exact le_trans haM (max_le (le_max_left _ _)
              (le_trans (le_max_left accM v) (le_max_right _ _)))
          · rw [hKM.2.2 (lt_of_not_le hga) hgh]
            exact le_trans (le_max_right accM v) (le_max_right _ _)
      refine ih (max lo g) _ _ (max acc g) (max accM v) hlo2 hlohi2 hMa2 haM2 ?_ ?_
      · intro hcontra
        by_cases h2 : g > acc ∨ best = none
        · rw [if_pos h2] at hcontra; exact absurd hcontra (by simp)
        · rw [if_neg h2] at hcontra
          exact absurd (Or.inr hcontra) h2
      · intro hcontra
        by_cases h2 : v > accM ∨ bestM = none
        · rw [if_pos h2] at hcontra; exact absurd hcontra (by simp)
        · rw [if_neg h2] at hcontra
          exact absurd (Or.inr hcontra) h2

lemma abMinLoop_KM (search : Board → Score → Score → Option (Int × Int) × Score)
    (msearch : Board → Option (Int × Int) × Score)
    (hrel : ∀ b2 lo hi, lo < hi → KMrel ((search b2 lo hi).2) ((msearch b2).2) lo hi)
    (hfin : ∀ b2 lo hi, FinS ((search b2 lo hi).2))
    (hmfin : ∀ b2, FinS ((msearch b2).2))
    (b : Board) (nc : Int) (lo hi0 : Score) :
    ∀ (ms : List (Int × Int)) (hi : Score) (best bestM : Option (Int × Int))
      (acc accM : Score),
      hi = min hi0 acc → lo < hi →
      acc ≤ accM → min hi0 accM ≤ acc →
      (best = none → acc = ⊤) → (bestM = none → accM = ⊤) →
      KMrel ((abMinLoop search b nc ms lo hi best acc).2)
            ((mmMinLoop msearch b nc ms bestM accM).2) lo hi0 := by
  intro ms
  induction ms with
  | nil =>
    intro hi best bestM acc accM hhieq hlohi haM hMa _ _
    refine ⟨fun hle => ?_, fun _ => haM, fun _ hlt => ?_⟩
    · -- acc ≤ lo contradicts lo < hi ≤ acc
      exact absurd (lt_of_lt_of_le (lt_of_lt_of_le hlohi (hhieq ▸ min_le_right hi0 acc)) hle)
        (lt_irrefl lo)
    · -- acc < hi0 forces accM ≤ acc
      refine le_antisymm haM ?_
      rcases min_cases hi0 accM with ⟨hmx, _⟩ | ⟨hmx, _⟩
      · rw [hmx] at hMa; exact absurd (lt_of_le_of_lt hMa hlt) (lt_irrefl _)
      · rwa [hmx] at hMa
  | cons m rest ih =>
    intro hi best bestM acc accM hhieq hlohi haM hMa hbn hbMn
    simp only [abMinLoop, mmMinLoop]
    have hKM := hrel (apply_move b (some m) nc) lo hi hlohi
    have hgfin := hfin (apply_move b (some m) nc) lo hi
    have hvfin := hmfin (apply_move b (some m) nc)
    set g := (search (apply_move b (some m) nc) lo hi).2 with hgdef
    set v := (msearch (apply_move b (some m) nc)).2 with hvdef
    have haccA : (if g < acc ∨ best = none then g else acc) = min acc g := by
      by_cases h1 : g < acc
      · rw [if_pos (Or.inl h1), min_eq_right (le_of_lt h1)]
      · have hga : acc ≤ g := le_of_not_lt h1
        rw [min_eq_left hga]
        by_cases h2 : best = none
        · exact absurd (top_le_iff.mp ((hbn h2) ▸ hga)) hgfin.ne_top
        · rw [if_neg (not_or.mpr ⟨h1, h2⟩)]
    have haccM : (if v < accM ∨ bestM = none then v else accM) = min accM v := by
      by_cases h1 : v < accM
      · rw [if_pos (Or.inl h1), min_eq_right (le_of_lt h1)]
      · have hva : accM ≤ v := le_of_not_lt h1
        rw [min_eq_left hva]
        by_cases h2 : bestM = none
        · exact absurd (top_le_iff.mp ((hbMn h2) ▸ hva)) hvfin.ne_top
        · rw [if_neg (not_or.mpr ⟨h1, h2⟩)]
    rw [haccA, haccM]
    by_cases hcut : min hi g ≤ lo
    · rw [if_pos hcut]
      -- cutoff: the child failed low
      have hgb : g ≤ lo := by
        rcases min_le_iff.mp hcut with h1 | h1
        · exact absurd (lt_of_lt_of_le hlohi h1) (lt_irrefl lo)
        · exact h1
      have hacc2 : min acc g = g :=
        min_eq_right (le_of_lt (lt_of_le_of_lt hgb
          (lt_of_lt_of_le hlohi (hhieq ▸ min_le_right hi0 acc))))
      rw [hacc2]
      have hgv : v ≤ g := hKM.1 hgb
      have hvM : min accM v ≤ v := min_le_right _ _
      have hmm : (mmMinLoop msearch b nc rest
          (if v < accM ∨ bestM = none then some m else bestM) (min accM v)).2 ≤
            min accM v := by
        apply mmMinLoop_le
        intro hcontra
        by_cases h2 : v < accM ∨ bestM = none
        · rw [if_pos h2] at hcontra; exact absurd hcontra (by simp)
        · rw [if_neg h2] at hcontra
          exact absurd (Or.inr hcontra) h2
      have hgtail : (mmMinLoop msearch b nc rest
          (if v < accM ∨ bestM = none then some m else bestM) (min accM v)).2 ≤ g :=
        le_trans (le_trans hmm hvM) hgv
      refine ⟨fun _ => hgtail, fun hge => ?_, fun hlt _ => ?_⟩
      · -- hi0 ≤ g is impossible: g ≤ lo < hi ≤ hi0
        exact absurd (lt_of_le_of_lt hge
          (lt_of_le_of_lt hgb (lt_of_lt_of_le hlohi (hhieq ▸ min_le_left hi0 acc))))
          (lt_irrefl _)
      · exact absurd (lt_of_lt_of_le hlt hgb) (lt_irrefl _)
    · rw [if_neg hcut]
      have hhieq2 : min hi g = min hi0 (min acc g) := by
        rw [hhieq, min_assoc]
      have hlohi2 : lo < min hi g := lt_of_not_le hcut
      have hgh : lo < g := lt_of_lt_of_le hlohi2 (min_le_right hi g)
      have hvg : g ≤ v := by
        by_cases hga : hi ≤ g
        · exact hKM.2.1 hga
        · exact le_of_eq (hKM.2.2 hgh (lt_of_not_le hga))
      have hMa2 : min acc g ≤ min accM v := min_le_min haM hvg
      have haM2 : min hi0 (min accM v) ≤ min acc g := by
        apply le_min
        · exact le_trans (min_le_min (le_refl hi0) (min_le_left accM v)) hMa
        · by_cases hga : hi ≤ g
          · refine le_trans ?_ hga
            rw [hhieq]
            apply le_min (min_le_left _ _)
            exact le_trans (min_le_min (le_refl hi0)
              (le_trans (min_le_left accM v) (le_refl accM))) hMa
          · rw [hKM.2.2 hgh (lt_of_not_le hga)]
            exact le_trans (min_le_right hi0 _) (min_le_right accM v)
      refine ih (min hi g) _ _ (min acc g) (min accM v) hhieq2 hlohi2 hMa2 haM2 ?_ ?_
      · intro hcontra
        by_cases h2 : g < acc ∨ best = none
        · rw [if_pos h2] at hcontra; exact absurd hcontra (by simp)
        · rw [if_neg h2] at hcontra
          exact absurd (Or.inr hcontra) h2
      · intro hcontra
        by_cases h2 : v < accM ∨ bestM = none
        · rw [if_pos h2] at hcontra; exact absurd hcontra (by simp)
        · rw [if_neg h2] at hcontra
          exact absurd (Or.inr hcontra) h2

lemma alphabeta_KM (color : Int) :
    ∀ (d : Nat) (b : Board) (lo hi : Score) (mx : Bool), lo < hi →
      KMrel ((alphabeta_search b color d lo hi mx).2)
            ((minimax_search b color d mx).2) lo hi := by
  intro d
  induction d with
  | zero =>
    intro b lo hi mx _
    exact ⟨fun _ => le_refl _, fun _ => le_refl _, fun _ _ => rfl⟩
  | succ d ih =>
    intro b lo hi mx hlohi
    simp only [alphabeta_search, minimax_search]
    by_cases hemp : (get_legal_moves b (if mx then color else -color)).isEmpty = true
    · rw [if_pos hemp, if_pos hemp]
      exact ⟨fun _ => le_refl _, fun _ => le_refl _, fun _ _ => rfl⟩
    · rw [if_neg hemp, if_neg hemp]
      cases mx
      · exact abMinLoop_KM _ _ (fun b2 lo2 hi2 h2 => ih b2 lo2 hi2 true h2)
          (fun b2 lo2 hi2 => alphabeta_finite color d b2 lo2 hi2 true)
          (fun b2 => minimax_finite color d b2 true) b _ lo hi _ hi none none ⊤ ⊤
          (min_eq_left le_top).symm hlohi (le_refl ⊤) le_top
          (fun _ => rfl) (fun _ => rfl)
      · exact abMaxLoop_KM _ _ (fun b2 lo2 hi2 h2 => ih b2 lo2 hi2 false h2)
          (fun b2 lo2 hi2 => alphabeta_finite color d b2 lo2 hi2 false)
          (fun b2 => minimax_finite color d b2 false) b _ lo hi _ lo none none ⊥ ⊥
          (max_eq_left bot_le).symm hlohi (le_refl ⊥) bot_le
          (fun _ => rfl) (fun _ => rfl)

lemma abMaxLoop_full (search : Board → Score → Score → Option (Int × Int) × Score)
    (msearch : Board → Option (Int × Int) × Score)
    (hrel : ∀ b2 lo hi, lo < hi → KMrel ((search b2 lo hi).2) ((msearch b2).2) lo hi)
    (hfin : ∀ b2 lo hi, FinS ((search b2 lo hi).2))
    (b : Board) (nc : Int) :
    ∀ (ms : List (Int × Int)) (best : Option (Int × Int)) (acc : Score),
      (best = none → acc = ⊥) → (acc = ⊥ ∨ FinS acc) →
      abMaxLoop search b nc ms acc ⊤ best acc = mmMaxLoop msearch b nc ms best acc := by
  intro ms
  induction ms with
  | nil => intro best acc _ _; rfl
  | cons m rest ih =>
    intro best acc hbn hfa
    simp only [abMaxLoop, mmMaxLoop]
    have hacclt : acc < ⊤ := by
      rcases hfa with h | h
      · rw [h]; exact lt_trans (FinS_toScore 0).bot_lt (FinS_toScore 0).lt_top
      · exact h.lt_top
    have hKM := hrel (apply_move b (some m) nc) acc ⊤ hacclt
    have hgfin := hfin (apply_move b (some m) nc) acc ⊤
    set g := (search (apply_move b (some m) nc) acc ⊤).2 with hgdef
    set v := (msearch (apply_move b (some m) nc)).2 with hvdef
    by_cases hga : g > acc
    · have hgv : g = v := hKM.2.2 hga hgfin.lt_top
      have hvga : v > acc := lt_of_lt_of_le hga (le_of_eq hgv)
      have eA1 : (if g > acc ∨ best = none then some m else best) = some m :=
        if_pos (Or.inl hga)
      have eA2 : (if g > acc ∨ best = none then g else acc) = g := if_pos (Or.inl hga)
      have eM1 : (if v > acc ∨ best = none then some m else best) = some m :=
        if_pos (Or.inl hvga)
      have eM2 : (if v > acc ∨ best = none then v else acc) = v := if_pos (Or.inl hvga)
      rw [eA1, eA2, eM1, eM2]
      have hnc : ¬ ((⊤ : Score) ≤ max acc g) := fun hh =>
        absurd (lt_of_le_of_lt hh (max_lt hacclt hgfin.lt_top)) (lt_irrefl _)
      rw [if_neg hnc, ← hgv, max_eq_right (le_of_lt hga)]
      exact ih (some m) g (fun h2 => Option.noConfusion h2) (Or.inr hgfin)
    · have hga2 : g ≤ acc := le_of_not_lt hga
      have hbne : best ≠ none := fun h2 =>
        absurd (le_bot_iff.mp ((hbn h2) ▸ hga2)) hgfin.ne_bot
      have hvle : v ≤ acc := le_trans (hKM.1 hga2) hga2
      have eA1 : (if g > acc ∨ best = none then some m else best) = best :=
        if_neg (not_or.mpr ⟨hga, hbne⟩)
      have eA2 : (if g > acc ∨ best = none then g else acc) = acc :=
        if_neg (not_or.mpr ⟨hga, hbne⟩)
      have eM1 : (if v > acc ∨ best = none then some m else best) = best :=
        if_neg (not_or.mpr ⟨not_lt_of_le hvle, hbne⟩)
      have eM2 : (if v > acc ∨ best = none then v else acc) = acc :=
        if_neg (not_or.mpr ⟨not_lt_of_le hvle, hbne⟩)
      rw [eA1, eA2, eM1, eM2, max_eq_left hga2,
          if_neg (fun hh => absurd (lt_of_le_of_lt hh hacclt) (lt_irrefl (⊤ : Score)))]
      exact ih best acc hbn hfa

/-- C6: with unlimited time and a full `(-inf, inf)` window, the move and
score returned by `alphabeta_search` equal, at every position and every
depth, the move and score of the brute-force full-width minimax over the
same depth and the same evaluator — pruning changes neither. -/
theorem alphabeta_eq_minimax (b : Board) (color : Int) (d : Nat) :
    alphabeta_search b color d ⊥ ⊤ true = minimax_search b color d true := by
  cases d with
  | zero => rfl
  | succ d =>
    have hA : alphabeta_search b color (d + 1) ⊥ ⊤ true =
        if (get_legal_moves b color).isEmpty then (none, toScore (evaluate_board b color))
        else abMaxLoop (fun b2 a2 b3 => alphabeta_search b2 color d a2 b3 false) b color
          (get_legal_moves b color) ⊥ ⊤ none ⊥ := rfl
    have hM : minimax_search b color (d + 1) true =
        if (get_legal_moves b color).isEmpty then (none, toScore (evaluate_board b color))
        else mmMaxLoop (fun b2 => minimax_search b2 color d false) b color
          (get_legal_moves b color) none ⊥ := rfl
    rw [hA, hM]
    by_cases hemp : (get_legal_moves b color).isEmpty = true
    · rw [if_pos hemp, if_pos hemp]
    · rw [if_neg hemp, if_neg hemp]
      exact abMaxLoop_full _ _ (fun b2 lo hi h2 => alphabeta_KM color d b2 lo hi false h2)
        (fun b2 lo hi => alphabeta_finite color d b2 lo hi false) b color
        (get_legal_moves b color) none ⊥ (fun _ => rfl) (Or.inl rfl)

/-! ## C7: the parallel root search agrees with the sequential root search -/

lemma wMaxLoop_eq (search : Board → Score → Score → Option (Int × Int) × Score)
    (wsearch : Board → Score → Score → Score)
    (hw : ∀ b2 lo hi, wsearch b2 lo hi = (search b2 lo hi).2)
    (hfin : ∀ b2 lo hi, FinS ((search b2 lo hi).2))
    (b : Board) (nc : Int) :
    ∀ (ms : List (Int × Int)) (lo hi : Score) (best : Option (Int × Int)) (acc : Score),
      (best = none → acc = ⊥) →
      wMaxLoop wsearch b nc ms lo hi acc = (abMaxLoop search b nc ms lo hi best acc).2 := by
  intro ms
  induction ms with
  | nil => intro lo hi best acc _; rfl
  | cons m rest ih =>
    intro lo hi best acc hbn
    simp only [wMaxLoop, abMaxLoop, hw]
    set ev := (search (apply_move b (some m) nc) lo hi).2 with hev
    have hevfin := hfin (apply_move b (some m) nc) lo hi
    have hacc : (if ev > acc ∨ best = none then ev else acc) = max acc ev := by
      by_cases h1 : ev > acc
      · rw [if_pos (Or.inl h1), max_eq_right (le_of_lt h1)]
      · have hga : ev ≤ acc := le_of_not_lt h1
        rw [max_eq_left hga]
        by_cases h2 : best = none
        · exact absurd (le_bot_iff.mp ((hbn h2) ▸ hga)) hevfin.ne_bot
        · rw [if_neg (not_or.mpr ⟨h1, h2⟩)]
    rw [hacc]
    by_cases hcut : hi ≤ max lo ev
    · rw [if_pos hcut, if_pos hcut]
    · rw [if_neg hcut, if_neg hcut]
      refine ih (max lo ev) hi (if ev > acc ∨ best = none then some m else best)
        (max acc ev) ?_
      intro hcontra
      by_cases h2 : ev > acc ∨ best = none
      · rw [if_pos h2] at hcontra; exact absurd hcontra (by simp)
      · rw [if_neg h2] at hcontra
        exact absurd (Or.inr hcontra) h2

lemma wMinLoop_eq (search : Board → Score → Score → Option (Int × Int) × Score)
    (wsearch : Board → Score → Score → Score)
    (hw : ∀ b2 lo hi, wsearch b2 lo hi = (search b2 lo hi).2)
    (hfin : ∀ b2 lo hi, FinS ((search b2 lo hi).2))
    (b : Board) (nc : Int) :
    ∀ (ms : List (Int × Int)) (lo hi : Score) (best : Option (Int × Int)) (acc : Score),
      (best = none → acc = ⊤) →
      wMinLoop wsearch b nc ms lo hi acc = (abMinLoop search b nc ms lo hi best acc).2 := by
  intro ms
  induction ms with
  | nil => intro lo hi best acc _; rfl
  | cons m rest ih =>
    intro lo hi best acc hbn
    simp only [wMinLoop, abMinLoop, hw]
    set ev := (search (apply_move b (some m) nc) lo hi).2 with hev
    have hevfin := hfin (apply_move b (some m) nc) lo hi
    have hacc : (if ev < acc ∨ best = none then ev else acc) = min acc ev := by
      by_cases h1 : ev < acc
      · rw [if_pos (Or.inl h1), min_eq_right (le_of_lt h1)]
      · have hga : acc ≤ ev := le_of_not_lt h1
        rw [min_eq_left hga]
        by_cases h2 : best = none
        · exact absurd (top_le_iff.mp ((hbn h2) ▸ hga)) hevfin.ne_top
        · rw [if_neg (not_or.mpr ⟨h1, h2⟩)]
    rw [hacc]
    by_cases hcut : min hi ev ≤ lo
    · rw [if_pos hcut, if_pos hcut]
    · rw [if_neg hcut, if_neg hcut]
      refine ih lo (min hi ev) (if ev < acc ∨ best = none then some m else best)
        (min acc ev) ?_
      intro hcontra
      by_cases h2 : ev < acc ∨ best = none
      · rw [if_pos h2] at hcontra; exact absurd hcontra (by simp)
      · rw [if_neg h2] at hcontra
        exact absurd (Or.inr hcontra) h2

lemma worker_alphabeta_eq (color : Int) :
    ∀ (d : Nat) (b : Board) (lo hi : Score) (mx : Bool),
      worker_alphabeta b color d lo hi mx = (alphabeta_search b color d lo hi mx).2 := by
  intro d
  induction d with
  | zero => intro b lo hi mx; rfl
  | succ d ih =>
    intro b lo hi mx
    simp only [worker_alphabeta, alphabeta_search]
    by_cases hemp : (get_legal_moves b (if mx then color else -color)).isEmpty = true
    · rw [if_pos hemp, if_pos hemp]
    · rw [if_neg hemp, if_neg hemp]
      cases mx
      · exact wMinLoop_eq _ _ (fun b2 lo2 hi2 => ih b2 lo2 hi2 true)
          (fun b2 lo2 hi2 => alphabeta_finite color d b2 lo2 hi2 true) b _ _ lo hi none ⊤
          (fun _ => rfl)
      · exact wMaxLoop_eq _ _ (fun b2 lo2 hi2 => ih b2 lo2 hi2 false)
          (fun b2 lo2 hi2 => alphabeta_finite color d b2 lo2 hi2 false) b _ _ lo hi none ⊥
          (fun _ => rfl)

lemma bot_lt_top_score : (⊥ : Score) < ⊤ :=
  lt_trans (FinS_toScore 0).bot_lt (FinS_toScore 0).lt_top

lemma pyMaxBySecond_cons (r x : (Int × Int) × Score) (l : List ((Int × Int) × Score)) :
    pyMaxBySecond r (x :: l) = pyMaxBySecond (if x.2 > r.2 then x else r) l := rfl

lemma seqRootLoop_firstMax (search : Board → Score → Score → Option (Int × Int) × Score)
    (msearch : Board → Option (Int × Int) × Score)
    (hrel : ∀ b2 lo hi, lo < hi → KMrel ((search b2 lo hi).2) ((msearch b2).2) lo hi)
    (hfin : ∀ b2 lo hi, FinS ((search b2 lo hi).2))
    (b : Board) (color : Int) :
    ∀ (ms : List (Int × Int)) (best : Int × Int) (bs : Score), FinS bs →
      seqRootLoop search b color ms bs ⊤ (some best) bs =
        (some (pyMaxBySecond (best, bs)
            (ms.map fun m2 => (m2, (msearch (apply_move b (some m2) color)).2))).1,
         (pyMaxBySecond (best, bs)
            (ms.map fun m2 => (m2, (msearch (apply_move b (some m2) color)).2))).2) := by
  intro ms
  induction ms with
  | nil => intro best bs _; rfl
  | cons m rest ih =>
    intro best bs hfbs
    have hmap : ((m :: rest).map fun m2 => (m2, (msearch (apply_move b (some m2) color)).2)) =
        (m, (msearch (apply_move b (some m) color)).2) ::
          (rest.map fun m2 => (m2, (msearch (apply_move b (some m2) color)).2)) := rfl
    have hstep : pyMaxBySecond (best, bs)
          ((m, (msearch (apply_move b (some m) color)).2) ::
            (rest.map fun m2 => (m2, (msearch (apply_move b (some m2) color)).2))) =
        pyMaxBySecond
          (if (msearch (apply_move b (some m) color)).2 > bs
            then (m, (msearch (apply_move b (some m) color)).2) else (best, bs))
          (rest.map fun m2 => (m2, (msearch (apply_move b (some m2) color)).2)) := rfl
    rw [hmap, hstep]
    simp only [seqRootLoop]
    set g := (search (apply_move b (some m) color) bs ⊤).2 with hgdef
    set v := (msearch (apply_move b (some m) color)).2 with hvdef
    have hgfin := hfin (apply_move b (some m) color) bs ⊤
    have hKM := hrel (apply_move b (some m) color) bs ⊤ hfbs.lt_top
    by_cases hgb : g > bs
    · have hgv : g = v := hKM.2.2 hgb hgfin.lt_top
      have eA1 : (if g > bs ∨ (some best : Option (Int × Int)) = none then some m
          else some best) = some m := if_pos (Or.inl hgb)
      have eA2 : (if g > bs ∨ (some best : Option (Int × Int)) = none then g else bs) = g :=
        if_pos (Or.inl hgb)
      rw [eA1, eA2, max_eq_right (le_of_lt hgb), ← hgv, if_pos hgb]
      exact ih m g hgfin
    · have hgle : g ≤ bs := le_of_not_lt hgb
      have hvle : v ≤ bs := le_trans (hKM.1 hgle) hgle
      have eA1 : (if g > bs ∨ (some best : Option (Int × Int)) = none then some m
          else some best) = some best :=
        if_neg (not_or.mpr ⟨hgb, fun h2 => Option.noConfusion h2⟩)
      have eA2 : (if g > bs ∨ (some best : Option (Int × Int)) = none then g else bs) = bs :=
        if_neg (not_or.mpr ⟨hgb, fun h2 => Option.noConfusion h2⟩)
      rw [eA1, eA2, max_eq_left hgle, if_neg (not_lt_of_le hvle)]
      exact ih best bs hfbs

/-- C7: for any root move list with at least 2 moves and any depth ≥ 2,
with unlimited time the move chosen by the parallel root search equals
the move chosen by the sequential root search (for fewer than 2
effective workers the source itself falls back to the sequential
search, so the equality is definitional there). -/
theorem parallel_root_eq_sequential_root (b : Board) (color : Int)
    (moves : List (Int × Int)) (depth ncpu : Nat)
    (hmoves : moves = get_legal_moves b color) (hlen : 2 ≤ moves.length)
    (hd : 2 ≤ depth) :
    (root_search_parallel b color moves depth ncpu).1 =
      (root_search_sequential b color moves depth).1 := by
  unfold root_search_parallel
  by_cases hn : min ncpu moves.length ≤ 1
  · rw [if_pos hn]
  · rw [if_neg hn]
    cases moves with
    | nil => simp at hlen
    | cons m1 rest =>
      have hfin1 := alphabeta_finite color (depth - 1) (apply_move b (some m1) color) ⊥ ⊤ false
      have hg1v : (alphabeta_search (apply_move b (some m1) color) color (depth - 1)
            ⊥ ⊤ false).2 =
          (minimax_search (apply_move b (some m1) color) color (depth - 1) false).2 :=
        (alphabeta_KM color (depth - 1) (apply_move b (some m1) color) ⊥ ⊤ false
          bot_lt_top_score).2.2 hfin1.bot_lt hfin1.lt_top
      have hworker : (fun m => parallel_worker b m depth color) =
          fun m => (m, (minimax_search (apply_move b (some m) color) color (depth - 1)
            false).2) := by
        funext m
        show (m, worker_alphabeta (apply_move b (some m) color) color (depth - 1) ⊥ ⊤ false) = _
        rw [worker_alphabeta_eq]
        have hfing := alphabeta_finite color (depth - 1) (apply_move b (some m) color) ⊥ ⊤ false
        rw [(alphabeta_KM color (depth - 1) (apply_move b (some m) color) ⊥ ⊤ false
          bot_lt_top_score).2.2 hfing.bot_lt hfing.lt_top]
      have hmapall : (m1 :: rest).map (fun m => parallel_worker b m depth color) =
          (m1, (minimax_search (apply_move b (some m1) color) color (depth - 1) false).2) ::
            (rest.map fun m2 =>
              (m2, (minimax_search (apply_move b (some m2) color) color (depth - 1)
                false).2)) := by
        rw [hworker]
        rfl
      rw [hmapall]
      have hseq : root_search_sequential b color (m1 :: rest) depth =
          seqRootLoop (fun b2 a2 b3 => alphabeta_search b2 color (depth - 1) a2 b3 false)
            b color rest
            (max ⊥ (alphabeta_search (apply_move b (some m1) color) color (depth - 1)
              ⊥ ⊤ false).2) ⊤ (some m1)
            (alphabeta_search (apply_move b (some m1) color) color (depth - 1) ⊥ ⊤ false).2 := by
        simp only [root_search_sequential, seqRootLoop]
        have e1 : (if (alphabeta_search (apply_move b (some m1) color) color (depth - 1)
              ⊥ ⊤ false).2 > ⊥ ∨ True
            then some m1 else (none : Option (Int × Int))) = some m1 :=
          if_pos (Or.inr trivial)
        have e2 : (if (alphabeta_search (apply_move b (some m1) color) color (depth - 1)
              ⊥ ⊤ false).2 > ⊥ ∨ True
            then (alphabeta_search (apply_move b (some m1) color) color (depth - 1)
              ⊥ ⊤ false).2 else ⊥) =
            (alphabeta_search (apply_move b (some m1) color) color (depth - 1) ⊥ ⊤ false).2 :=
          if_pos (Or.inr trivial)
        rw [e1, e2]
      rw [hseq, max_eq_right bot_le,
        seqRootLoop_firstMax (fun b2 a2 b3 => alphabeta_search b2 color (depth - 1) a2 b3 false)
          (fun b2 => minimax_search b2 color (depth - 1) false)
          (fun b2 lo hi h2 => alphabeta_KM color (depth - 1) b2 lo hi false h2)
          (fun b2 lo hi => alphabeta_finite color (depth - 1) b2 lo hi false)
          b color rest m1 _ hfin1,
        hg1v]

/-- Witness for C7 at a concrete input: the four legal opening moves for
Black, depth 2, two workers. -/
theorem parallel_root_eq_sequential_root_witness :
    ([(2, 4), (3, 5), (4, 2), (5, 3)] : List (Int × Int)) =
        get_legal_moves startBoard BLACK ∧
    2 ≤ ([(2, 4), (3, 5), (4, 2), (5, 3)] : List (Int × Int)).length ∧
    2 ≤ 2 ∧
    (root_search_parallel startBoard BLACK [(2, 4), (3, 5), (4, 2), (5, 3)] 2 2).1 =
      (root_search_sequential startBoard BLACK [(2, 4), (3, 5), (4, 2), (5, 3)] 2).1 :=
  ⟨by decide, by decide, by decide,
   parallel_root_eq_sequential_root startBoard BLACK [(2, 4), (3, 5), (4, 2), (5, 3)] 2 2
     (by decide) (by decide) (by decide)⟩
